import Mathlib

/-!
Verification development for the code-memory indexing and hybrid-retrieval
engine.  Python sources are shallowly embedded as executable Lean
definitions: database tables become explicit record states, fallible SQL
statements return `Except`, floats used for scores and timestamps become
rationals, and Python strings become `String` / `List Char`.
-/

namespace CodeMemory

/-! ## Store model (db.py)

The store state abstracts the SQLite database: each relational table is
kept as a row count (the claims under verification only observe counts and
emptiness), the two `vec0` virtual embedding tables are `Option` because
they can be dropped, and the `index_metadata` rows are the two optional
keys `embedding_model` / `embedding_dim`. -/

structure EmbTable where
  dim : Nat
  rows : Nat
deriving DecidableEq, Repr

structure Store where
  files : Nat
  symbols : Nat
  references : Nat
  docChunks : Nat
  docFiles : Nat
  symbolEmbeddings : Option EmbTable
  docEmbeddings : Option EmbTable
  metaModel : Option String
  metaDim : Option Nat
deriving DecidableEq, Repr

/-- `DELETE FROM <tableName>` against an embedding virtual table: clears the
rows when the table exists and fails with SQLite's "no such table" error
when it does not. -/
def deleteAllRows (t : Option EmbTable) (tableName : String) : Except String EmbTable :=
  match t with
  | none => .error ("no such table: " ++ tableName)
  | some e => .ok { e with rows := 0 }

/-- `_create_embedding_tables` (db.py:372-394): `CREATE VIRTUAL TABLE IF NOT
EXISTS` for both embedding tables, sized for `embeddingDim`.  An existing
table is left untouched. -/
def createEmbeddingTables (s : Store) (embeddingDim : Nat) : Store :=
  { s with
    symbolEmbeddings := some (s.symbolEmbeddings.getD { dim := embeddingDim, rows := 0 }),
    docEmbeddings := some (s.docEmbeddings.getD { dim := embeddingDim, rows := 0 }) }

/-- `_invalidate_index` (db.py:348-369), statement by statement:
`DROP TABLE IF EXISTS symbol_embeddings`, `DROP TABLE IF EXISTS
doc_embeddings`, then `DELETE FROM symbol_embeddings`, `DELETE FROM
doc_embeddings`, `DELETE FROM symbols` / `files` / `references_` /
`doc_chunks` / `doc_files`, and finally `_create_embedding_tables`.  The
relational `DELETE`s cannot fail and are modelled as one record update;
the two embedding `DELETE`s run against tables that were just dropped. -/
def invalidateIndex (s : Store) (embeddingDim : Nat) : Except String Store := do
  let s1 : Store := { s with symbolEmbeddings := none, docEmbeddings := none }
  let se ← deleteAllRows s1.symbolEmbeddings "symbol_embeddings"
  let de ← deleteAllRows s1.docEmbeddings "doc_embeddings"
  let s2 : Store := { s1 with
    symbolEmbeddings := some se, docEmbeddings := some de,
    symbols := 0, files := 0, references := 0, docChunks := 0, docFiles := 0 }
  pure (createEmbeddingTables s2 embeddingDim)

/-- The model-change test of `get_db` (db.py:315-320): metadata absent, or a
different stored model name, or a different stored dimension. -/
def modelChanged (s : Store) (modelName : String) (embeddingDim : Nat) : Bool :=
  s.metaModel.isNone || s.metaModel != some modelName ||
  s.metaDim.isNone || s.metaDim != some embeddingDim

/-- `get_db` (db.py:277-345) after the schema script: read the metadata;
on a model change either run `_invalidate_index` (metadata present) or
create the embedding tables (fresh database), then write the new
metadata. -/
def getDb (s : Store) (modelName : String) (embeddingDim : Nat) : Except String Store := do
  if modelChanged s modelName embeddingDim then
    let s1 ←
      if s.metaModel.isSome then
        invalidateIndex s embeddingDim
      else
        pure (createEmbeddingTables s embeddingDim)
    pure { s1 with metaModel := some modelName, metaDim := some embeddingDim }
  else
    pure s

/-- A store that was already indexed under one model: metadata present,
non-empty symbol table, embedding tables sized 384. -/
def indexedStoreM1 : Store :=
  { files := 1, symbols := 5, references := 3, docChunks := 2, docFiles := 1,
    symbolEmbeddings := some { dim := 384, rows := 5 },
    docEmbeddings := some { dim := 384, rows := 2 },
    metaModel := some "nomic-ai/nomic-embed-text-v1.5", metaDim := some 384 }

/-! ## Validation model (validation.py) -/

/-- The dynamically-typed `value` argument of `validate_top_k`: `None`, a
Python `int`, or a value of some other type (for which `value == 0` is
`False` and `isinstance(value, int)` fails). -/
inductive TopKInput where
  | noneVal
  | intVal (z : Int)
  | nonInt (typeName : String)
deriving DecidableEq, Repr

/-- Outcome of a validation helper: a returned value or a raised
`ValidationError` with its message. -/
inductive ValidationOutcome where
  | ok (k : Int)
  | raised (msg : String)
deriving DecidableEq, Repr

/-- `validate_top_k` (validation.py:196-232): `None` and `0` return the
default; non-ints raise; ints outside `[minVal, maxVal]` raise; all other
ints are returned unchanged. -/
def validateTopK (value : TopKInput) (minVal maxVal default : Int) : ValidationOutcome :=
  match value with
  | .noneVal => .ok default
  | .intVal z =>
    if z = 0 then .ok default
    else if z < minVal then .raised ("top_k must be >= " ++ toString minVal)
    else if maxVal < z then .raised ("top_k must be <= " ++ toString maxVal)
    else .ok z
  | .nonInt _ => .raised "top_k must be an integer"

/-! ## Parse-phase model (parser.py)

`_parse_file_for_indexing` (parser.py:618-686).  The tree-sitter grammar
lookup and CST extraction are abstracted into `grammarResult`: `some
(symbols, references)` when a grammar exists for the extension (carrying
the extraction output), `none` when no grammar is available.  The stored
`files` row, on-disk mtime and content fingerprint are explicit. -/

structure SymbolRec where
  name : String
  kind : String
  lineStart : Nat
  lineEnd : Nat
  sourceText : String
  parentId : Option Nat
deriving DecidableEq, Repr

structure FileRow where
  lastModified : ℚ
  fileHash : String
deriving DecidableEq, Repr

structure ParsedFile where
  skipped : Bool
  mtime : ℚ
  fhash : String
  symbols : List SymbolRec
  references : List (String × Nat)
  fallback : Bool
deriving DecidableEq, Repr

def countNewlines (s : String) : Nat := s.toList.count '\n'

/-- Python slicing `s[:n]`: the first `n` characters of `s`. -/
def pyTake (s : String) (n : Nat) : String := ⟨s.toList.take n⟩

/-- The single whole-file symbol emitted when no grammar is available
(parser.py:673-684). -/
def fallbackSymbol (basename : String) (sourceText : String) : SymbolRec :=
  { name := basename, kind := "file", lineStart := 1,
    lineEnd := countNewlines sourceText + 1,
    sourceText := pyTake sourceText 5000, parentId := none }

/-- The freshly-parsed (non-skipped) result of `_parse_file_for_indexing`. -/
def parseFresh (mtime : ℚ) (fhash : String)
    (grammarResult : Option (List SymbolRec × List (String × Nat)))
    (basename : String) (sourceText : String) : ParsedFile :=
  match grammarResult with
  | some (syms, refs) =>
    { skipped := false, mtime := mtime, fhash := fhash,
      symbols := syms, references := refs, fallback := false }
  | none =>
    { skipped := false, mtime := mtime, fhash := fhash,
      symbols := [fallbackSymbol basename sourceText], references := [], fallback := true }

/-- `_parse_file_for_indexing` (parser.py:618-686).  The freshness gate is
`if row and row[1] >= mtime: return skipped`; the stored fingerprint is
never read at this point (the `SELECT` fetches only `id, last_modified`),
and `fhash` is computed only on the non-skipped path. -/
def parseFileForIndexing (stored : Option FileRow) (mtime : ℚ) (fhash : String)
    (grammarResult : Option (List SymbolRec × List (String × Nat)))
    (basename : String) (sourceText : String) : ParsedFile :=
  match stored with
  | some row =>
    if mtime ≤ row.lastModified then
      { skipped := true, mtime := mtime, fhash := fhash,
        symbols := [], references := [], fallback := false }
    else
      parseFresh mtime fhash grammarResult basename sourceText
  | none => parseFresh mtime fhash grammarResult basename sourceText

/-! ## Hybrid search model (queries.py)

`hybrid_search` (queries.py:99-194).  The two retrieval legs are passed in
as already-ranked lists of rows (the model does not re-implement SQLite's
BM25 or the vector index; the claims are about the fusion).  Python dicts
are modelled as insertion-ordered association lists, and `sorted(...,
key=score, reverse=True)` as a stable insertion sort by descending score.
The final display rounding (`round(score, 6)`, `round(confidence, 3)`) is
not modelled; all fused scores and confidences are exact rationals. -/

structure SearchRow where
  sid : Nat
  name : String
deriving DecidableEq, Repr

/-- `_RRF_K = 60` (queries.py:19). -/
def rrfK : ℚ := 60

/-- First-match lookup in an association list, defaulting to 0
(`scores.get(sid, 0.0)`). -/
def lookupScore : List (Nat × ℚ) → Nat → ℚ
  | [], _ => 0
  | p :: rest, sid => if p.1 = sid then p.2 else lookupScore rest sid

def hasKey : List (Nat × ℚ) → Nat → Bool
  | [], _ => false
  | p :: rest, sid => p.1 == sid || hasKey rest sid

def replaceKey : List (Nat × ℚ) → Nat → ℚ → List (Nat × ℚ)
  | [], _, _ => []
  | p :: rest, sid, inc =>
    if p.1 = sid then (p.1, p.2 + inc) :: replaceKey rest sid inc
    else p :: replaceKey rest sid inc

/-- `scores[sid] = scores.get(sid, 0.0) + inc` on an insertion-ordered
dict: update in place when the key exists, append otherwise. -/
def bumpScore (m : List (Nat × ℚ)) (sid : Nat) (inc : ℚ) : List (Nat × ℚ) :=
  if hasKey m sid then replaceKey m sid inc else m ++ [(sid, inc)]

/-- One ranked-list pass of the RRF accumulation
(`for rank, r in enumerate(results, start=1): scores[sid] += 1/(K+rank)`). -/
def addRanked (m : List (Nat × ℚ)) (rows : List SearchRow) (rank : Nat) : List (Nat × ℚ) :=
  match rows with
  | [] => m
  | r :: rest => addRanked (bumpScore m r.sid (1 / (rrfK + rank))) rest (rank + 1)

/-- The fused RRF score dict after both loops of `hybrid_search`. -/
def hybridScores (bm25 vec : List SearchRow) : List (Nat × ℚ) :=
  addRanked (addRanked [] bm25 1) vec 1

/-- 1-based rank of `sid` in a ranked list, scanning from `rank`. -/
def rankInFrom (rows : List SearchRow) (sid : Nat) (rank : Nat) : Option Nat :=
  match rows with
  | [] => none
  | r :: rest => if r.sid = sid then some rank else rankInFrom rest sid (rank + 1)

/-- 1-based rank of `sid` in a ranked list (`enumerate(..., start=1)`). -/
def rankIn (rows : List SearchRow) (sid : Nat) : Option Nat := rankInFrom rows sid 1

/-- The reciprocal-rank contribution of one source:
`1/(K + rank)` when the document appears in it, 0 otherwise. -/
def rrfContribution (rows : List SearchRow) (sid : Nat) : ℚ :=
  match rankIn rows sid with
  | some rk => 1 / (rrfK + rk)
  | none => 0

/-- First-match lookup of a key in an insertion-ordered dict. -/
def lookupName : List (Nat × String) → Nat → Option String
  | [], _ => none
  | p :: rest, sid => if p.1 = sid then some p.2 else lookupName rest sid

/-- The insertion-ordered `details` dict entry update: the BM25 loop
assigns unconditionally, the vector loop only when the key is absent. -/
def setName (m : List (Nat × String)) (sid : Nat) (nm : String) : List (Nat × String) :=
  if (lookupName m sid).isSome then
    m.map (fun p => if p.1 = sid then (p.1, nm) else p)
  else m ++ [(sid, nm)]

def setNameIfAbsent (m : List (Nat × String)) (sid : Nat) (nm : String) :
    List (Nat × String) :=
  if (lookupName m sid).isSome then m else m ++ [(sid, nm)]

def setNames (m : List (Nat × String)) (rows : List SearchRow) : List (Nat × String) :=
  match rows with
  | [] => m
  | r :: rest => setNames (setName m r.sid r.name) rest

def setNamesIfAbsent (m : List (Nat × String)) (rows : List SearchRow) :
    List (Nat × String) :=
  match rows with
  | [] => m
  | r :: rest => setNamesIfAbsent (setNameIfAbsent m r.sid r.name) rest

def hybridDetails (bm25 vec : List SearchRow) : List (Nat × String) :=
  setNamesIfAbsent (setNames [] bm25) vec

/-- First-match lookup in the `match_sources` dict. -/
def lookupTags : List (Nat × List String) → Nat → Option (List String)
  | [], _ => none
  | p :: rest, sid => if p.1 = sid then some p.2 else lookupTags rest sid

/-- Value update of one `match_sources` entry: append `tag`, except that
the vector loop (`checkDup = true`) first checks for its presence. -/
def tagUpd (tag : String) (checkDup : Bool) (l : List String) : List String :=
  if checkDup && l.contains tag then l else l ++ [tag]

/-- One `match_sources` update: the BM25 loop appends `"bm25"`
unconditionally, the vector loop appends `"vector"` when missing
(`checkDup = true`). -/
def addSource (m : List (Nat × List String)) (sid : Nat) (tag : String)
    (checkDup : Bool) : List (Nat × List String) :=
  if (lookupTags m sid).isSome then
    m.map (fun p => if p.1 = sid then (p.1, tagUpd tag checkDup p.2) else p)
  else m ++ [(sid, [tag])]

def addSources (m : List (Nat × List String)) (rows : List SearchRow) (tag : String)
    (checkDup : Bool) : List (Nat × List String) :=
  match rows with
  | [] => m
  | r :: rest => addSources (addSource m r.sid tag checkDup) rest tag checkDup

def hybridSources (bm25 vec : List SearchRow) : List (Nat × List String) :=
  addSources (addSources [] bm25 "bm25" false) vec "vector" true

/-- Membership of a symbol id in one retrieval leg. -/
def sidMem (rows : List SearchRow) (sid : Nat) : Prop := ∃ r ∈ rows, r.sid = sid

instance (rows : List SearchRow) (sid : Nat) : Decidable (sidMem rows sid) :=
  inferInstanceAs (Decidable (∃ r ∈ rows, r.sid = sid))

/-- `max_single_rrf = 1.0 / (_RRF_K + 1)` (queries.py:172). -/
def maxSingleRrf : ℚ := 1 / (rrfK + 1)

/-- Confidence normalisation (queries.py:174-177): hybrid results are
scaled against `2 * max_single_rrf`, single-source results against
`max_single_rrf` and multiplied by 0.7, both capped at 1. -/
def confidenceFor (isHybrid : Bool) (score : ℚ) : ℚ :=
  if isHybrid then min 1 (score / (2 * maxSingleRrf))
  else min 1 (score / maxSingleRrf * (7 / 10))

/-- Descending-by-score comparison used for
`sorted(scores.items(), key=lambda kv: kv[1], reverse=True)`. -/
def scoreDesc (a b : Nat × ℚ) : Prop := b.2 ≤ a.2

instance : DecidableRel scoreDesc := fun a b => inferInstanceAs (Decidable (b.2 ≤ a.2))

instance : IsTotal (Nat × ℚ) scoreDesc := ⟨fun a b => le_total b.2 a.2⟩

instance : IsTrans (Nat × ℚ) scoreDesc := ⟨fun _ _ _ h1 h2 => le_trans h2 h1⟩

/-- The ranked `(sid, score)` pairs kept by `hybrid_search`: stable sort by
descending fused score, truncated to `topK`. -/
def hybridRanked (bm25 vec : List SearchRow) (topK : Nat) : List (Nat × ℚ) :=
  (List.insertionSort scoreDesc (hybridScores bm25 vec)).take topK

structure HybridResult where
  sid : Nat
  name : String
  score : ℚ
  matchReason : String
  confidence : ℚ
deriving DecidableEq, Repr

/-- `hybrid_search` (queries.py:99-194): fuse the two ranked lists with
RRF, sort by descending fused score, keep `topK`, and attach match
reason and normalised confidence. -/
def hybridSearch (bm25 vec : List SearchRow) (topK : Nat) : List HybridResult :=
  let details := hybridDetails bm25 vec
  let sources := hybridSources bm25 vec
  (hybridRanked bm25 vec topK).map (fun p =>
    let srcs := (lookupTags sources p.1).getD []
    let isHybrid := srcs.length == 2
    { sid := p.1,
      name := (lookupName details p.1).getD "",
      score := p.2,
      matchReason :=
        if isHybrid then "hybrid (BM25 + semantic)"
        else if srcs.contains "bm25" then "keyword match (BM25)"
        else "semantic match (vector)",
      confidence := confidenceFor isHybrid p.2 })

/-- The selection logic of `find_definition` (queries.py:261-279): hybrid
search with `top_k=20`, case-sensitive exact-name post-filter, first five
hybrid results as a fallback. -/
def findDefinitionMatched (bm25 vec : List SearchRow) (symbolName : String) :
    List HybridResult :=
  let results := hybridSearch bm25 vec 20
  let exact := results.filter (fun r => r.name == symbolName)
  if exact.isEmpty then results.take 5 else exact

/-! ## Doc chunking model (doc_parser.py)

`chunk_content` (doc_parser.py:179-219) over `List Char` (Python string
indices become list positions).  The while-loop is modelled with explicit
fuel (`none` = fuel exhausted before the loop finished); claim C10 shows
`content.length` fuel always suffices under the code's parameters. -/

/-- Python `str.strip()`: remove leading and trailing whitespace. -/
def pyStrip (l : List Char) : List Char :=
  ((l.dropWhile Char.isWhitespace).reverse.dropWhile Char.isWhitespace).reverse

/-- Python slicing `content[s:e]`. -/
def pySlice (l : List Char) (s e : Nat) : List Char := (l.take e).drop s

/-- Scan positions `s + k - 1, …, s` from the right and return the first
(hence largest) position satisfying `p`, or `-1` when none does —
exactly the contract of Python's `str.rfind`. -/
def rfindFrom (p : Nat → Bool) (s : Nat) : Nat → Int
  | 0 => -1
  | k + 1 => if p (s + k) then ((s + k : Nat) : Int) else rfindFrom p s k

/-- `content.rfind(". ", s, e)`: the largest `i` with `s ≤ i`, `i + 2 ≤ e`
and `content[i:i+2] == ". "`, or `-1`. -/
def rfindDotSpace (content : List Char) (s e : Nat) : Int :=
  rfindFrom
    (fun i => decide (i + 2 ≤ e) && content.get? i == some '.'
      && content.get? (i + 1) == some ' ') s (e - s)

/-- `content.rfind("\n", s, e)`, or `-1`. -/
def rfindNewline (content : List Char) (s e : Nat) : Int :=
  rfindFrom (fun i => content.get? i == some '\n') s (e - s)

/-- The split point chosen for the window starting at `start`
(doc_parser.py:200-211): a full window `start + max_size` when it reaches
the end of the content; otherwise prefer the last `". "` boundary past
the window midpoint (cutting after the period), then the last newline
past the midpoint, then a hard cut.  The guards are Python's
`boundary > start + max_size // 2` (false for `-1`). -/
def chooseEnd (content : List Char) (maxSize start : Nat) : Nat :=
  if start + maxSize < content.length then
    if ((start + maxSize / 2 : Nat) : Int) < rfindDotSpace content start (start + maxSize) then
      (rfindDotSpace content start (start + maxSize)).toNat + 1
    else if ((start + maxSize / 2 : Nat) : Int) <
        rfindNewline content start (start + maxSize) then
      (rfindNewline content start (start + maxSize)).toNat
    else start + maxSize
  else start + maxSize

/-- The occurrence predicate behind `rfind(". ", s, e)`. -/
def dotSpaceOk (content : List Char) (s e j : Nat) : Prop :=
  s ≤ j ∧ j + 2 ≤ e ∧ content.get? j = some '.' ∧ content.get? (j + 1) = some ' '

/-- The occurrence predicate behind `rfind("\n", s, e)`. -/
def newlineOk (content : List Char) (s e j : Nat) : Prop :=
  s ≤ j ∧ j + 1 ≤ e ∧ content.get? j = some '\n'

/-- The next loop start: `end - overlap` while the window stops short of
the end of the content, `len(content)` (loop exit) otherwise. -/
def nextStart (content : List Char) (maxSize overlap start : Nat) : Nat :=
  if chooseEnd content maxSize start < content.length
  then chooseEnd content maxSize start - overlap
  else content.length

/-- The `while start < len(content)` loop of `chunk_content`: slice the
window, strip it, keep it when non-empty, and restart at `end - overlap`
(or finish when the window reached the end). -/
def chunkLoop (content : List Char) (maxSize overlap : Nat) :
    Nat → Nat → Option (List (List Char))
  | 0, start => if start < content.length then none else some []
  | fuel + 1, start =>
    if start < content.length then
      match chunkLoop content maxSize overlap fuel
          (nextStart content maxSize overlap start) with
      | none => none
      | some rest =>
        if (pyStrip (pySlice content start (chooseEnd content maxSize start))).isEmpty
        then some rest
        else some (pyStrip (pySlice content start (chooseEnd content maxSize start)) :: rest)
    else some []

/-- `chunk_content`: contents of at most `maxSize` characters are a single
chunk, larger contents go through the overlapping-window loop. -/
def chunkContent (content : List Char) (maxSize overlap fuel : Nat) :
    Option (List (List Char)) :=
  if content.length ≤ maxSize then some [content]
  else chunkLoop content maxSize overlap fuel 0

/-- The `(start, end)` windows visited by the loop, same recursion as
`chunkLoop`. -/
def windowLoop (content : List Char) (maxSize overlap : Nat) :
    Nat → Nat → Option (List (Nat × Nat))
  | 0, start => if start < content.length then none else some []
  | fuel + 1, start =>
    if start < content.length then
      match windowLoop content maxSize overlap fuel
          (nextStart content maxSize overlap start) with
      | none => none
      | some rest => some ((start, chooseEnd content maxSize start) :: rest)
    else some []

/-- The chunks of one section that `index_doc_file` actually persists
(doc_parser.py:291-318): nothing when the section body is below
`min_chunk_size`, otherwise the sub-chunks of `chunk_content` with the
short ones discarded. -/
def persistedChunks (sectionContent : List Char) (maxSize overlap minSize fuel : Nat) :
    Option (List (List Char)) :=
  if sectionContent.length < minSize then some []
  else
    (chunkContent sectionContent maxSize overlap fuel).map
      (fun cs => cs.filter (fun c => decide (minSize ≤ c.length)))

/-! ## Blame model (git_search.py)

`get_blame` (git_search.py:234-312).  The `repo.blame("HEAD", path)`
output is the input: a list of `(commit, lines)` hunks.  Commit metadata
other than the hash is dropped (the claim only observes line numbers,
commit identity and joined content). -/

structure BlameLine where
  line : Nat
  commit : String
  content : String
deriving DecidableEq, Repr

structure BlameGroup where
  lineStart : Nat
  lineEnd : Nat
  commit : String
  content : String
deriving DecidableEq, Repr

/-- Flatten blame hunks into per-line entries numbered from `n`
(git_search.py:261-278, with `current_line = 1` at the top call). -/
def flattenBlame : List (String × List String) → Nat → List BlameLine
  | [], _ => []
  | (c, ls) :: rest, n =>
    (ls.enum.map (fun p => { line := n + p.1, commit := c, content := p.2 })) ++
      flattenBlame rest (n + ls.length)

def blameLines (bd : List (String × List String)) : List BlameLine := flattenBlame bd 1

/-- The two successive per-line range filters (git_search.py:281-284). -/
def filterRange (lo hi : Option Nat) (fl : List BlameLine) : List BlameLine :=
  (fl.filter (fun e =>
    match lo with
    | some s => decide (s ≤ e.line)
    | none => true)).filter (fun e =>
    match hi with
    | some t => decide (e.line ≤ t)
    | none => true)

/-- One grouping step (git_search.py:288-305): extend the last group when
the entry continues the same commit on the next line (`line_end ==
line_number - 1`, with all line numbers ≥ 1), else append a fresh
single-line group. -/
def groupStep (grouped : List BlameGroup) (entry : BlameLine) : List BlameGroup :=
  match grouped.getLast? with
  | some g =>
    if g.commit == entry.commit && g.lineEnd + 1 == entry.line then
      grouped.dropLast ++
        [{ g with lineEnd := entry.line, content := g.content ++ "\n" ++ entry.content }]
    else
      grouped ++ [{ lineStart := entry.line, lineEnd := entry.line,
                    commit := entry.commit, content := entry.content }]
  | none =>
    grouped ++ [{ lineStart := entry.line, lineEnd := entry.line,
                  commit := entry.commit, content := entry.content }]

def groupBlame (fl : List BlameLine) : List BlameGroup := fl.foldl groupStep []

/-- `get_blame`: flatten, filter the per-line entries to the requested
range, then group runs of consecutive same-commit lines. -/
def getBlame (bd : List (String × List String)) (lo hi : Option Nat) : List BlameGroup :=
  groupBlame (filterRange lo hi (blameLines bd))

/-- Modelled from the claim's wording: group the per-line entries first
and only then filter the grouped output to the requested range (keeping
the grouped entries that intersect it).  Stated for comparison with
`getBlame`, which filters before grouping. -/
def getBlameGroupFirst (bd : List (String × List String)) (lo hi : Option Nat) :
    List BlameGroup :=
  (groupBlame (blameLines bd)).filter (fun g =>
    (match lo with
     | some s => decide (s ≤ g.lineEnd)
     | none => true) &&
    (match hi with
     | some t => decide (g.lineStart ≤ t)
     | none => true))

/-! ## Reference extraction and upserts (parser.py, db.py) -/

/-- A tree-sitter CST node: node type, source text of the node, 1-indexed
start line, children.  Byte-range decoding is abstracted into the
per-node text. -/
inductive TSNode where
  | node (typ : String) (text : String) (line : Nat) (children : List TSNode)

mutual

/-- `_extract_references` (parser.py:313-332): walk the tree carrying the
`seen` set and the `refs` list; an identifier-like node contributes its
`(name, line)` pair when not seen before; children are always visited. -/
def refsWalk (n : TSNode) (st : List (String × Nat) × List (String × Nat)) :
    List (String × Nat) × List (String × Nat) :=
  match n with
  | .node typ text line children =>
    refsWalkList children
      (if typ == "identifier" || typ == "name" || typ == "type_identifier" then
        (if (text, line) ∈ st.1 then st
         else ((text, line) :: st.1, st.2 ++ [(text, line)]))
       else st)

def refsWalkList (l : List TSNode) (st : List (String × Nat) × List (String × Nat)) :
    List (String × Nat) × List (String × Nat) :=
  match l with
  | [] => st
  | n :: rest => refsWalkList rest (refsWalk n st)

end

def extractReferences (root : TSNode) : List (String × Nat) :=
  (refsWalk root ([], [])).2

/-- `upsert_reference` (db.py:499-516): `INSERT ... ON CONFLICT(symbol_name,
file_id, line_number) DO NOTHING` over the `references_` table, whose rows
are modelled by their unique `(symbol_name, file_id, line_number)` triple. -/
def upsertReference (tbl : List (String × Nat × Nat)) (row : String × Nat × Nat) :
    List (String × Nat × Nat) :=
  if row ∈ tbl then tbl else tbl ++ [row]

/-! # Theorems -/

/-- **C1** — The spec requires `get_db` to purge the whole index and
re-initialize the embedding tables when the configured model differs from
the stored metadata, so that after reopening `count(symbols) = 0`.  The
code cannot do this: `_invalidate_index` first drops both embedding
tables and then executes `DELETE FROM symbol_embeddings` against the
dropped table, so it always fails with SQLite's "no such table" error,
and `get_db` on a model change over an existing index propagates that
error instead of purging; in particular the concrete reopened store
`indexedStoreM1` (5 symbols, model M1) under a new model raises rather
than reaching `count(symbols) = 0`. -/
theorem c1_invalidate_index_always_raises :
    (∀ (s : Store) (d : Nat),
      invalidateIndex s d = .error "no such table: symbol_embeddings") ∧
    getDb indexedStoreM1 "some-other-model" 768 =
      .error "no such table: symbol_embeddings" := by
  refine ⟨fun s d => rfl, ?_⟩
  rfl

/-- **C2 (counterexample)** — The claim says the parse phase skips exactly
when on-disk mtime ≤ stored mtime AND the stored fingerprint matches the
current one.  At stored record (mtime 5, hash "h1"), on-disk mtime 5 and
current hash "h2", the code skips even though the fingerprint differs,
refuting the claimed equivalence at this input. -/
theorem c2_skip_gate_counterexample :
    ¬((parseFileForIndexing (some { lastModified := 5, fileHash := "h1" })
        5 "h2" none "f.py" "").skipped = true ↔
      ((5 : ℚ) ≤ 5 ∧ "h1" = "h2")) := by
  decide

/-- **C2 (amended)** — The parse phase marks a candidate file skipped
exactly when it has a stored row whose stored mtime is ≥ the on-disk
mtime; the stored fingerprint is not consulted, so a file whose content
fingerprint changed without its mtime increasing is also skipped.  A
skipped result carries no symbols or references (its derived rows are
left untouched). -/
theorem c2_skip_gate_mtime_only (stored : Option FileRow) (mtime : ℚ) (fhash : String)
    (grammarResult : Option (List SymbolRec × List (String × Nat)))
    (basename sourceText : String) :
    ((parseFileForIndexing stored mtime fhash grammarResult basename sourceText).skipped = true ↔
      ∃ row, stored = some row ∧ mtime ≤ row.lastModified) ∧
    ((parseFileForIndexing stored mtime fhash grammarResult basename sourceText).skipped = true →
      (parseFileForIndexing stored mtime fhash grammarResult basename sourceText).symbols = [] ∧
      (parseFileForIndexing stored mtime fhash grammarResult basename sourceText).references = []) := by
  cases stored with
  | none =>
    constructor
    · constructor
      · intro h
        cases grammarResult with
        | none => simp [parseFileForIndexing, parseFresh] at h
        | some pr => obtain ⟨syms, refs⟩ := pr; simp [parseFileForIndexing, parseFresh] at h
      · rintro ⟨row, hrow, _⟩
        exact absurd hrow (by simp)
    · intro h
      cases grammarResult with
      | none => simp [parseFileForIndexing, parseFresh] at h
      | some pr => obtain ⟨syms, refs⟩ := pr; simp [parseFileForIndexing, parseFresh] at h
  | some row =>
    by_cases hle : mtime ≤ row.lastModified
    · constructor
      · simp [parseFileForIndexing, hle]
      · intro _
        simp [parseFileForIndexing, hle]
    · constructor
      · constructor
        · intro h
          rw [parseFileForIndexing] at h
          simp only [if_neg hle] at h
          cases grammarResult with
          | none => simp [parseFresh] at h
          | some pr => obtain ⟨syms, refs⟩ := pr; simp [parseFresh] at h
        · rintro ⟨row2, hrow, hle2⟩
          cases hrow
          exact absurd hle2 hle
      · intro h
        rw [parseFileForIndexing] at h
        simp only [if_neg hle] at h
        cases grammarResult with
        | none => simp [parseFresh] at h
        | some pr => obtain ⟨syms, refs⟩ := pr; simp [parseFresh] at h

/-- Witness for C2 (amended): a file with a stored row whose mtime equals
the on-disk mtime is skipped, with empty symbols and references. -/
theorem c2_skip_gate_mtime_only_witness :
    (parseFileForIndexing (some { lastModified := 5, fileHash := "h1" })
        5 "h2" none "f.py" "").skipped = true ∧
    (parseFileForIndexing (some { lastModified := 5, fileHash := "h1" })
        5 "h2" none "f.py" "").symbols = [] := by
  have h := c2_skip_gate_mtime_only (some { lastModified := 5, fileHash := "h1" })
    5 "h2" none "f.py" ""
  have hs : (parseFileForIndexing (some { lastModified := 5, fileHash := "h1" })
      5 "h2" none "f.py" "").skipped = true :=
    h.1.mpr ⟨{ lastModified := 5, fileHash := "h1" }, rfl, le_refl 5⟩
  exact ⟨hs, (h.2 hs).1⟩

/-- **C7** — For a readable file whose extension has no grammar
(`grammarResult = none`) that is not skipped by the freshness gate, the
parse phase emits exactly one fallback symbol: kind `"file"`, name the
basename, line range `1 .. (newline count + 1)` (the file's line count),
source text truncated to 5000 characters, and the fallback flag set. -/
theorem c7_fallback_single_file_symbol (stored : Option FileRow) (mtime : ℚ)
    (fhash : String) (basename sourceText : String)
    (hfresh : ∀ row, stored = some row → row.lastModified < mtime) :
    (parseFileForIndexing stored mtime fhash none basename sourceText).symbols =
      [{ name := basename, kind := "file", lineStart := 1,
         lineEnd := countNewlines sourceText + 1,
         sourceText := pyTake sourceText 5000, parentId := none }] ∧
    (parseFileForIndexing stored mtime fhash none basename sourceText).fallback = true ∧
    (parseFileForIndexing stored mtime fhash none basename sourceText).symbols.length = 1 := by
  have hns : parseFileForIndexing stored mtime fhash none basename sourceText =
      parseFresh mtime fhash none basename sourceText := by
    cases stored with
    | none => rfl
    | some row =>
      have := hfresh row rfl
      rw [parseFileForIndexing, if_neg (not_le.mpr this)]
  rw [hns, parseFresh]
  exact ⟨rfl, rfl, rfl⟩

/-- Witness for C7: a two-line file `"a\nb"` named `notes.xyz` with no
stored row yields the single fallback symbol spanning lines 1-2. -/
theorem c7_fallback_single_file_symbol_witness :
    (parseFileForIndexing none 3 "h" none "notes.xyz" "a\nb").symbols =
      [{ name := "notes.xyz", kind := "file", lineStart := 1,
         lineEnd := 2, sourceText := "a\nb", parentId := none }] := by
  have h := c7_fallback_single_file_symbol none 3 "h" "notes.xyz" "a\nb"
    (fun row hrow => by cases hrow)
  rw [h.1]
  decide

/-- **C9** — `validate_top_k` returns the default 10 for `None` and for
`0` (even though 0 is below the minimum 1) without raising; every other
input raises exactly when it is not an integer or lies outside `[1, 100]`,
and is returned unchanged otherwise. -/
theorem c9_validate_top_k_gate :
    validateTopK .noneVal 1 100 10 = .ok 10 ∧
    validateTopK (.intVal 0) 1 100 10 = .ok 10 ∧
    (∀ t, ∃ m, validateTopK (.nonInt t) 1 100 10 = .raised m) ∧
    (∀ z : Int, z ≠ 0 →
      ((1 ≤ z ∧ z ≤ 100) → validateTopK (.intVal z) 1 100 10 = .ok z) ∧
      ((z < 1 ∨ 100 < z) → ∃ m, validateTopK (.intVal z) 1 100 10 = .raised m)) := by
  refine ⟨rfl, rfl, fun t => ⟨_, rfl⟩, fun z hz => ⟨?_, ?_⟩⟩
  · rintro ⟨h1, h2⟩
    rw [validateTopK, if_neg hz, if_neg (not_lt.mpr h1), if_neg (not_lt.mpr h2)]
  · intro h
    rcases h with h | h
    · exact ⟨_, by rw [validateTopK, if_neg hz, if_pos h]⟩
    · by_cases hlow : z < 1
      · exact ⟨_, by rw [validateTopK, if_neg hz, if_pos hlow]⟩
      · exact ⟨_, by rw [validateTopK, if_neg hz, if_neg hlow, if_pos h]⟩

/-- Witness for C9: in-range 7 is returned unchanged and out-of-range 101
raises. -/
theorem c9_validate_top_k_gate_witness :
    validateTopK (.intVal 7) 1 100 10 = .ok 7 ∧
    ∃ m, validateTopK (.intVal 101) 1 100 10 = .raised m :=
  ⟨(c9_validate_top_k_gate.2.2.2 7 (by decide)).1 (by decide),
   (c9_validate_top_k_gate.2.2.2 101 (by decide)).2 (by decide)⟩

/-! ### Association-list lemmas for the RRF score dict -/

theorem lookupScore_eq_zero_of_hasKey_false (m : List (Nat × ℚ)) (sid : Nat)
    (h : hasKey m sid = false) : lookupScore m sid = 0 := by
  induction m with
  | nil => rfl
  | cons p rest ih =>
    rw [hasKey, Bool.or_eq_false_iff] at h
    rw [lookupScore, if_neg (beq_eq_false_iff_ne.mp h.1)]
    exact ih h.2

theorem lookupScore_append_of_hasKey_false (m1 m2 : List (Nat × ℚ)) (sid : Nat)
    (h : hasKey m1 sid = false) :
    lookupScore (m1 ++ m2) sid = lookupScore m2 sid := by
  induction m1 with
  | nil => rfl
  | cons p rest ih =>
    rw [hasKey, Bool.or_eq_false_iff] at h
    rw [List.cons_append, lookupScore, if_neg (beq_eq_false_iff_ne.mp h.1)]
    exact ih h.2

theorem lookupScore_append_singleton_other (m : List (Nat × ℚ)) (sid t : Nat) (v : ℚ)
    (h : t ≠ sid) : lookupScore (m ++ [(sid, v)]) t = lookupScore m t := by
  induction m with
  | nil =>
    simp only [List.nil_append, lookupScore]
    rw [if_neg (fun he => h he.symm)]
  | cons p rest ih =>
    rw [List.cons_append, lookupScore, lookupScore]
    by_cases hp : p.1 = t
    · rw [if_pos hp, if_pos hp]
    · rw [if_neg hp, if_neg hp]
      exact ih

theorem lookupScore_replaceKey_self (m : List (Nat × ℚ)) (sid : Nat) (inc : ℚ)
    (h : hasKey m sid = true) :
    lookupScore (replaceKey m sid inc) sid = lookupScore m sid + inc := by
  induction m with
  | nil => simp [hasKey] at h
  | cons p rest ih =>
    rw [replaceKey]
    by_cases hp : p.1 = sid
    · rw [if_pos hp, lookupScore, if_pos hp, lookupScore, if_pos hp]
    · rw [if_neg hp, lookupScore, if_neg hp, lookupScore, if_neg hp]
      apply ih
      rw [hasKey, Bool.or_eq_true] at h
      rcases h with h | h
      · exact absurd (beq_iff_eq.mp h) hp
      · exact h

theorem lookupScore_replaceKey_other (m : List (Nat × ℚ)) (sid t : Nat) (inc : ℚ)
    (h : t ≠ sid) : lookupScore (replaceKey m sid inc) t = lookupScore m t := by
  induction m with
  | nil => rfl
  | cons p rest ih =>
    rw [replaceKey]
    by_cases hp : p.1 = sid
    · have hpt : ¬p.1 = t := fun he => h (he.symm.trans hp)
      rw [if_pos hp, lookupScore, if_neg hpt, lookupScore, if_neg hpt]
      exact ih
    · rw [if_neg hp, lookupScore, lookupScore]
      by_cases hq : p.1 = t
      · rw [if_pos hq, if_pos hq]
      · rw [if_neg hq, if_neg hq]
        exact ih

theorem lookupScore_bumpScore_self (m : List (Nat × ℚ)) (sid : Nat) (inc : ℚ) :
    lookupScore (bumpScore m sid inc) sid = lookupScore m sid + inc := by
  rw [bumpScore]
  by_cases h : hasKey m sid = true
  · rw [if_pos h]
    exact lookupScore_replaceKey_self m sid inc h
  · have hf : hasKey m sid = false := Bool.not_eq_true _ ▸ eq_false_of_ne_true h
    rw [if_neg h, lookupScore_append_of_hasKey_false m _ sid hf,
        lookupScore_eq_zero_of_hasKey_false m sid hf, lookupScore, if_pos rfl, zero_add]

theorem lookupScore_bumpScore_other (m : List (Nat × ℚ)) (sid t : Nat) (inc : ℚ)
    (h : t ≠ sid) : lookupScore (bumpScore m sid inc) t = lookupScore m t := by
  rw [bumpScore]
  by_cases hk : hasKey m sid = true
  · rw [if_pos hk]
    exact lookupScore_replaceKey_other m sid t inc h
  · rw [if_neg hk]
    exact lookupScore_append_singleton_other m sid t inc h

theorem lookupScore_addRanked_of_not_mem (rows : List SearchRow) :
    ∀ (m : List (Nat × ℚ)) (k sid : Nat), (∀ r ∈ rows, r.sid ≠ sid) →
    lookupScore (addRanked m rows k) sid = lookupScore m sid := by
  induction rows with
  | nil => intro m k sid _; rfl
  | cons r rest ih =>
    intro m k sid h
    rw [addRanked, ih _ _ sid (fun x hx => h x (List.mem_cons_of_mem _ hx))]
    exact lookupScore_bumpScore_other m r.sid sid _
      (Ne.symm (h r (List.mem_cons_self _ _)))

theorem lookupScore_addRanked_eq (rows : List SearchRow) :
    ∀ (m : List (Nat × ℚ)) (k sid : Nat), (rows.map SearchRow.sid).Nodup →
    lookupScore (addRanked m rows k) sid =
      lookupScore m sid +
        (match rankInFrom rows sid k with
         | some rk => 1 / (rrfK + rk)
         | none => 0) := by
  induction rows with
  | nil =>
    intro m k sid _
    rw [addRanked, rankInFrom]
    exact (add_zero _).symm
  | cons r rest ih =>
    intro m k sid hnd
    rw [List.map_cons, List.nodup_cons] at hnd
    rw [addRanked, rankInFrom]
    by_cases hs : r.sid = sid
    · rw [if_pos hs]
      subst hs
      have hrest : ∀ x ∈ rest, x.sid ≠ r.sid := by
        intro x hx he
        exact hnd.1 (he ▸ List.mem_map_of_mem SearchRow.sid hx)
      rw [lookupScore_addRanked_of_not_mem rest _ _ r.sid hrest,
          lookupScore_bumpScore_self m r.sid (1 / (rrfK + (k : ℚ)))]
    · rw [if_neg hs, ih _ _ sid hnd.2,
          lookupScore_bumpScore_other m r.sid sid _ (Ne.symm hs)]

theorem rankInFrom_ge (rows : List SearchRow) :
    ∀ (sid k rk : Nat), rankInFrom rows sid k = some rk → k ≤ rk := by
  induction rows with
  | nil => intro sid k rk h; exact absurd h (by rw [rankInFrom]; exact Option.noConfusion)
  | cons r rest ih =>
    intro sid k rk h
    rw [rankInFrom] at h
    by_cases hs : r.sid = sid
    · rw [if_pos hs] at h
      exact (Option.some_inj.mp h) ▸ le_refl k
    · rw [if_neg hs] at h
      exact le_trans (Nat.le_succ k) (ih sid (k + 1) rk h)

/-! ### Association-list lemmas for the match-sources dict -/

theorem lookupTags_map_keyupd (m : List (Nat × List String)) (s : Nat)
    (f : List String → List String) (t : Nat) (h : t ≠ s) :
    lookupTags (m.map (fun p => if p.1 = s then (p.1, f p.2) else p)) t =
      lookupTags m t := by
  induction m with
  | nil => rfl
  | cons p rest ih =>
    rw [List.map_cons]
    by_cases hp : p.1 = s
    · have hpt : ¬p.1 = t := fun he => h (he.symm.trans hp)
      rw [if_pos hp, lookupTags, lookupTags, if_neg hpt, if_neg hpt]
      exact ih
    · rw [if_neg hp, lookupTags, lookupTags]
      by_cases hq : p.1 = t
      · rw [if_pos hq, if_pos hq]
      · rw [if_neg hq, if_neg hq]
        exact ih

theorem lookupTags_map_keyupd_self (m : List (Nat × List String)) (s : Nat)
    (f : List String → List String) (l : List String) (h : lookupTags m s = some l) :
    lookupTags (m.map (fun p => if p.1 = s then (p.1, f p.2) else p)) s =
      some (f l) := by
  induction m with
  | nil => exact absurd h (by rw [lookupTags]; exact Option.noConfusion)
  | cons p rest ih =>
    rw [lookupTags] at h
    rw [List.map_cons]
    by_cases hp : p.1 = s
    · rw [if_pos hp] at h
      rw [if_pos hp, lookupTags, if_pos hp, Option.some_inj.mp h]
    · rw [if_neg hp] at h
      rw [if_neg hp, lookupTags, if_neg hp]
      exact ih h

theorem lookupTags_append_of_none (m m2 : List (Nat × List String)) (s : Nat)
    (h : lookupTags m s = none) : lookupTags (m ++ m2) s = lookupTags m2 s := by
  induction m with
  | nil => rfl
  | cons p rest ih =>
    rw [lookupTags] at h
    by_cases hp : p.1 = s
    · rw [if_pos hp] at h
      exact absurd h Option.noConfusion
    · rw [if_neg hp] at h
      rw [List.cons_append, lookupTags, if_neg hp]
      exact ih h

theorem lookupTags_append_singleton_other (m : List (Nat × List String)) (s t : Nat)
    (v : List String) (h : t ≠ s) :
    lookupTags (m ++ [(s, v)]) t = lookupTags m t := by
  induction m with
  | nil =>
    simp only [List.nil_append, lookupTags]
    rw [if_neg (fun he => h he.symm)]
  | cons p rest ih =>
    rw [List.cons_append, lookupTags, lookupTags]
    by_cases hp : p.1 = t
    · rw [if_pos hp, if_pos hp]
    · rw [if_neg hp, if_neg hp]
      exact ih

theorem lookupTags_addSource_other (m : List (Nat × List String)) (s : Nat)
    (tag : String) (cd : Bool) (t : Nat) (h : t ≠ s) :
    lookupTags (addSource m s tag cd) t = lookupTags m t := by
  rw [addSource]
  by_cases hk : (lookupTags m s).isSome = true
  · rw [if_pos hk]
    exact lookupTags_map_keyupd m s (tagUpd tag cd) t h
  · rw [if_neg hk]
    exact lookupTags_append_singleton_other m s t [tag] h

theorem lookupTags_addSource_self (m : List (Nat × List String)) (s : Nat)
    (tag : String) (cd : Bool) :
    lookupTags (addSource m s tag cd) s =
      some (match lookupTags m s with
            | some l => tagUpd tag cd l
            | none => [tag]) := by
  rw [addSource]
  cases hm : lookupTags m s with
  | none =>
    rw [if_neg (by simp), lookupTags_append_of_none m _ s hm, lookupTags, if_pos rfl]
  | some l =>
    rw [if_pos (by simp), lookupTags_map_keyupd_self m s (tagUpd tag cd) l hm]

theorem lookupTags_addSources_of_not_mem (rows : List SearchRow) :
    ∀ (m : List (Nat × List String)) (tag : String) (cd : Bool) (sid : Nat),
    (∀ r ∈ rows, r.sid ≠ sid) →
    lookupTags (addSources m rows tag cd) sid = lookupTags m sid := by
  induction rows with
  | nil => intro m tag cd sid _; rfl
  | cons r rest ih =>
    intro m tag cd sid h
    rw [addSources, ih _ _ _ sid (fun x hx => h x (List.mem_cons_of_mem _ hx))]
    exact lookupTags_addSource_other m r.sid tag cd sid
      (Ne.symm (h r (List.mem_cons_self _ _)))

theorem lookupTags_addSources_of_mem (rows : List SearchRow) :
    ∀ (m : List (Nat × List String)) (tag : String) (cd : Bool) (sid : Nat),
    (rows.map SearchRow.sid).Nodup → (∃ r ∈ rows, r.sid = sid) →
    lookupTags (addSources m rows tag cd) sid =
      some (match lookupTags m sid with
            | some l => tagUpd tag cd l
            | none => [tag]) := by
  induction rows with
  | nil => rintro m tag cd sid _ ⟨r, hr, _⟩; exact absurd hr (List.not_mem_nil r)
  | cons r rest ih =>
    rintro m tag cd sid hnd ⟨x, hx, hxs⟩
    rw [List.map_cons, List.nodup_cons] at hnd
    rw [addSources]
    rcases List.mem_cons.mp hx with hx | hx
    · subst hx
      subst hxs
      have hrest : ∀ y ∈ rest, y.sid ≠ x.sid := by
        intro y hy he
        exact hnd.1 (he ▸ List.mem_map_of_mem SearchRow.sid hy)
      rw [lookupTags_addSources_of_not_mem rest _ tag cd x.sid hrest,
          lookupTags_addSource_self m x.sid tag cd]
    · rw [ih _ tag cd sid hnd.2 ⟨x, hx, hxs⟩,
          lookupTags_addSource_other m r.sid tag cd sid]
      intro he
      exact hnd.1 (he ▸ hxs ▸ List.mem_map_of_mem SearchRow.sid hx)

/-- Full characterization of the `match_sources` dict after both loops. -/
theorem hybridSources_spec (bm25 vec : List SearchRow)
    (hb : (bm25.map SearchRow.sid).Nodup) (hv : (vec.map SearchRow.sid).Nodup)
    (sid : Nat) :
    lookupTags (hybridSources bm25 vec) sid =
      if sidMem bm25 sid then
        (if sidMem vec sid then some ["bm25", "vector"] else some ["bm25"])
      else
        (if sidMem vec sid then some ["vector"] else none) := by
  rw [hybridSources]
  by_cases hbm : sidMem bm25 sid
  · have hfirst : lookupTags (addSources [] bm25 "bm25" false) sid = some ["bm25"] := by
      rw [lookupTags_addSources_of_mem bm25 [] "bm25" false sid hb hbm]
      rfl
    by_cases hvm : sidMem vec sid
    · rw [if_pos hbm, if_pos hvm,
          lookupTags_addSources_of_mem vec _ "vector" true sid hv hvm, hfirst]
      rfl
    · rw [if_pos hbm, if_neg hvm,
          lookupTags_addSources_of_not_mem vec _ "vector" true sid
            (fun r hr he => hvm ⟨r, hr, he⟩), hfirst]
  · have hfirst : lookupTags (addSources [] bm25 "bm25" false) sid = none := by
      rw [lookupTags_addSources_of_not_mem bm25 [] "bm25" false sid
        (fun r hr he => hbm ⟨r, hr, he⟩)]
      rfl
    by_cases hvm : sidMem vec sid
    · rw [if_neg hbm, if_pos hvm,
          lookupTags_addSources_of_mem vec _ "vector" true sid hv hvm, hfirst]
    · rw [if_neg hbm, if_neg hvm,
          lookupTags_addSources_of_not_mem vec _ "vector" true sid
            (fun r hr he => hvm ⟨r, hr, he⟩), hfirst]

/-! ### Confidence arithmetic -/

theorem confidenceFor_hybrid_at_rank (r : Nat) (hr : 1 ≤ r) :
    confidenceFor true (2 / (rrfK + r)) = 61 / (60 + (r : ℚ)) := by
  have hx : (1 : ℚ) ≤ (r : ℚ) := by exact_mod_cast hr
  have hpos : (0 : ℚ) < 60 + (r : ℚ) := by linarith
  have hne : (60 : ℚ) + (r : ℚ) ≠ 0 := ne_of_gt hpos
  rw [confidenceFor, if_pos rfl]
  have harg : 2 / (rrfK + (r : ℚ)) / (2 * maxSingleRrf) = 61 / (60 + (r : ℚ)) := by
    rw [maxSingleRrf, rrfK]
    rw [show (60 : ℚ) + 1 = 61 by norm_num]
    field_simp
    ring
  rw [harg, min_eq_right ((div_le_one hpos).mpr (by linarith))]

theorem confidenceFor_single_at_rank (r : Nat) (hr : 1 ≤ r) :
    confidenceFor false (1 / (rrfK + r)) = 61 / (60 + (r : ℚ)) * (7 / 10) := by
  have hx : (1 : ℚ) ≤ (r : ℚ) := by exact_mod_cast hr
  have hpos : (0 : ℚ) < 60 + (r : ℚ) := by linarith
  have hne : (60 : ℚ) + (r : ℚ) ≠ 0 := ne_of_gt hpos
  rw [confidenceFor, if_neg (by simp)]
  have harg : 1 / (rrfK + (r : ℚ)) / maxSingleRrf * (7 / 10) =
      61 / (60 + (r : ℚ)) * (7 / 10) := by
    rw [maxSingleRrf, rrfK]
    rw [show (60 : ℚ) + 1 = 61 by norm_num]
    field_simp
  rw [harg]
  have hle : 61 / (60 + (r : ℚ)) ≤ 1 := (div_le_one hpos).mpr (by linarith)
  have h7 : 61 / (60 + (r : ℚ)) * (7 / 10) ≤ 1 := by
    have h0 : (0 : ℚ) ≤ 61 / (60 + (r : ℚ)) := by positivity
    nlinarith
  rw [min_eq_right h7]

/-- **C3** — `find_definition` runs hybrid search with `top_k = 20` and
post-filters the results for case-sensitive exact matches of the symbol
name: when at least one exact match exists it returns exactly the exact
matches, otherwise it returns the first five hybrid results as best
guesses. -/
theorem c3_find_definition_selection (bm25 vec : List SearchRow) (symbolName : String) :
    ((∃ r ∈ hybridSearch bm25 vec 20, r.name = symbolName) →
      findDefinitionMatched bm25 vec symbolName =
        (hybridSearch bm25 vec 20).filter (fun r => r.name == symbolName)) ∧
    ((∀ r ∈ hybridSearch bm25 vec 20, r.name ≠ symbolName) →
      findDefinitionMatched bm25 vec symbolName =
        (hybridSearch bm25 vec 20).take 5) := by
  constructor
  · rintro ⟨r, hr, hname⟩
    simp only [findDefinitionMatched]
    cases hfil : (hybridSearch bm25 vec 20).filter (fun r => r.name == symbolName) with
    | nil =>
      exfalso
      have hmem : r ∈ (hybridSearch bm25 vec 20).filter (fun r => r.name == symbolName) :=
        List.mem_filter.mpr ⟨hr, by simp [hname]⟩
      rw [hfil] at hmem
      exact List.not_mem_nil r hmem
    | cons a as =>
      simp
  · intro h
    have hfil : (hybridSearch bm25 vec 20).filter (fun r => r.name == symbolName) = [] := by
      rw [List.filter_eq_nil_iff]
      intro a ha
      simp [h a ha]
    simp only [findDefinitionMatched]
    rw [hfil]
    simp

/-- Witness for C3: one BM25-only result named "foo" is an exact match for
the query "foo", and `find_definition` returns exactly the filtered exact
matches. -/
theorem c3_find_definition_selection_witness :
    (∃ r ∈ hybridSearch [{ sid := 1, name := "foo" }] [] 20, r.name = "foo") ∧
    findDefinitionMatched [{ sid := 1, name := "foo" }] [] "foo" =
      (hybridSearch [{ sid := 1, name := "foo" }] [] 20).filter
        (fun r => r.name == "foo") := by
  have hex : ∃ r ∈ hybridSearch [{ sid := 1, name := "foo" }] [] 20, r.name = "foo" := by
    simp [hybridSearch, hybridRanked, hybridScores, addRanked, bumpScore, hasKey,
      replaceKey, hybridDetails, setNamesIfAbsent, setNames, setName, lookupName,
      hybridSources, addSources, addSource, lookupTags, List.insertionSort,
      List.orderedInsert]
  exact ⟨hex, (c3_find_definition_selection [{ sid := 1, name := "foo" }] [] "foo").1 hex⟩

/-- **C4** — `hybrid_search` fuses the two ranked lists with
reciprocal-rank fusion and normalises confidences: (i) the output is
sorted by descending fused score; (ii) with duplicate-free legs, the
fused score of every document is the sum over sources of `1/(K + rank)`
with `K = 60`; (iii) the match-sources record marks a document as hybrid
exactly when it appears in both legs; (iv) confidences lie in `[0, 1]`;
(v) the confidence assigned to a hybrid score obtained from rank `r` in
each source strictly exceeds the confidence assigned to a single-source
score at the same rank `r`; (vi) consequently, a document ranked `r` in
both legs of one search gets a strictly greater confidence than a
document ranked `r` in a single leg of another search. -/
theorem c4_rrf_fusion_confidence :
    (∀ (bm25 vec : List SearchRow) (topK : Nat),
      (hybridSearch bm25 vec topK).Pairwise (fun a b => b.score ≤ a.score)) ∧
    (∀ (bm25 vec : List SearchRow), (bm25.map SearchRow.sid).Nodup →
      (vec.map SearchRow.sid).Nodup → ∀ sid,
      lookupScore (hybridScores bm25 vec) sid =
        rrfContribution bm25 sid + rrfContribution vec sid) ∧
    (∀ (bm25 vec : List SearchRow), (bm25.map SearchRow.sid).Nodup →
      (vec.map SearchRow.sid).Nodup → ∀ sid,
      lookupTags (hybridSources bm25 vec) sid =
        if sidMem bm25 sid then
          (if sidMem vec sid then some ["bm25", "vector"] else some ["bm25"])
        else (if sidMem vec sid then some ["vector"] else none)) ∧
    (∀ (b : Bool) (score : ℚ), 0 ≤ score →
      0 ≤ confidenceFor b score ∧ confidenceFor b score ≤ 1) ∧
    (∀ r : Nat, 1 ≤ r →
      confidenceFor false (1 / (rrfK + r)) < confidenceFor true (2 / (rrfK + r))) ∧
    (∀ (bm25A vecA bm25B vecB : List SearchRow) (sid1 sid2 r : Nat),
      (bm25A.map SearchRow.sid).Nodup → (vecA.map SearchRow.sid).Nodup →
      (bm25B.map SearchRow.sid).Nodup → (vecB.map SearchRow.sid).Nodup →
      rankIn bm25A sid1 = some r → rankIn vecA sid1 = some r →
      rankIn bm25B sid2 = some r → rankIn vecB sid2 = none →
      confidenceFor false (lookupScore (hybridScores bm25B vecB) sid2) <
        confidenceFor true (lookupScore (hybridScores bm25A vecA) sid1)) := by
  have hscore : ∀ (bm25 vec : List SearchRow), (bm25.map SearchRow.sid).Nodup →
      (vec.map SearchRow.sid).Nodup → ∀ sid,
      lookupScore (hybridScores bm25 vec) sid =
        rrfContribution bm25 sid + rrfContribution vec sid := by
    intro bm25 vec hb hv sid
    rw [hybridScores, lookupScore_addRanked_eq vec _ 1 sid hv,
        lookupScore_addRanked_eq bm25 [] 1 sid hb]
    simp only [lookupScore, rrfContribution, rankIn, zero_add]
  have hcmp : ∀ r : Nat, 1 ≤ r →
      confidenceFor false (1 / (rrfK + r)) < confidenceFor true (2 / (rrfK + r)) := by
    intro r hr
    rw [confidenceFor_hybrid_at_rank r hr, confidenceFor_single_at_rank r hr]
    have hpos : (0 : ℚ) < 61 / (60 + (r : ℚ)) := by positivity
    exact mul_lt_of_lt_one_right hpos (by norm_num)
  refine ⟨?_, hscore, ?_, ?_, hcmp, ?_⟩
  · intro bm25 vec topK
    have hs : List.Pairwise scoreDesc
        (List.insertionSort scoreDesc (hybridScores bm25 vec)) :=
      List.sorted_insertionSort scoreDesc (hybridScores bm25 vec)
    have ht : List.Pairwise scoreDesc (hybridRanked bm25 vec topK) :=
      List.Pairwise.sublist (List.take_sublist topK _) hs
    simp only [hybridSearch]
    exact List.pairwise_map.mpr (ht.imp (fun h => h))
  · intro bm25 vec hb hv sid
    exact hybridSources_spec bm25 vec hb hv sid
  · intro b score hsc
    have hmsr : (0 : ℚ) < maxSingleRrf := by
      rw [maxSingleRrf, rrfK]; norm_num
    cases b with
    | true =>
      rw [confidenceFor, if_pos rfl]
      refine ⟨le_min zero_le_one ?_, min_le_left _ _⟩
      positivity
    | false =>
      rw [confidenceFor, if_neg (by simp)]
      refine ⟨le_min zero_le_one ?_, min_le_left _ _⟩
      positivity
  · intro bm25A vecA bm25B vecB sid1 sid2 r hbA hvA hbB hvB h1b h1v h2b h2v
    have hr : 1 ≤ r := rankInFrom_ge bm25A sid1 1 r h1b
    have hs1 : lookupScore (hybridScores bm25A vecA) sid1 = 2 / (rrfK + r) := by
      rw [hscore bm25A vecA hbA hvA sid1]
      simp only [rrfContribution, h1b, h1v]
      rw [div_add_div_same]
      norm_num
    have hs2 : lookupScore (hybridScores bm25B vecB) sid2 = 1 / (rrfK + r) := by
      rw [hscore bm25B vecB hbB hvB sid2]
      simp only [rrfContribution, h2b, h2v]
      rw [add_zero]
    rw [hs1, hs2]
    exact hcmp r hr

/-- Witness for C4: duplicate-free one-element legs; document 1 matched
both legs at rank 1 and document 2 matched only BM25 at rank 1, so the
hybrid confidence strictly exceeds the single-source one. -/
theorem c4_rrf_fusion_confidence_witness :
    (([{ sid := 1, name := "a" }] : List SearchRow).map SearchRow.sid).Nodup ∧
    lookupScore (hybridScores [{ sid := 1, name := "a" }] [{ sid := 1, name := "a" }]) 1 =
      rrfContribution [{ sid := 1, name := "a" }] 1 +
        rrfContribution [{ sid := 1, name := "a" }] 1 ∧
    confidenceFor false
        (lookupScore (hybridScores [{ sid := 2, name := "b" }] []) 2) <
      confidenceFor true
        (lookupScore (hybridScores [{ sid := 1, name := "a" }]
          [{ sid := 1, name := "a" }]) 1) := by
  obtain ⟨h1, h2, h3, h4, h5, h6⟩ := c4_rrf_fusion_confidence
  refine ⟨by decide, h2 _ _ (by decide) (by decide) 1, ?_⟩
  exact h6 [{ sid := 1, name := "a" }] [{ sid := 1, name := "a" }]
    [{ sid := 2, name := "b" }] [] 1 2 1
    (by decide) (by decide) (by decide) (by decide)
    (by decide) (by decide) (by decide) (by decide)

/-! ### rfind, chooseEnd and chunk-loop lemmas -/

theorem rfindFrom_cases (p : Nat → Bool) (s : Nat) :
    ∀ (k : Nat), rfindFrom p s k = -1 ∨
      ∃ b : Nat, rfindFrom p s k = (b : Int) ∧ s ≤ b ∧ b < s + k ∧ p b = true ∧
        (∀ j, s ≤ j → j < s + k → p j = true → j ≤ b) := by
  intro k
  induction k with
  | zero => exact Or.inl rfl
  | succ k ih =>
    by_cases hp : p (s + k) = true
    · refine Or.inr ⟨s + k, ?_, Nat.le_add_right s k, by omega, hp,
        fun j _ hj2 _ => by omega⟩
      rw [rfindFrom, if_pos hp]
    · have hstep : rfindFrom p s (k + 1) = rfindFrom p s k := by
        rw [rfindFrom, if_neg hp]
      rcases ih with hneg | ⟨b, hb, h1, h2, h3, h4⟩
      · exact Or.inl (hstep.trans hneg)
      · refine Or.inr ⟨b, hstep.trans hb, h1, by omega, h3, fun j hj1 hj2 hj3 => ?_⟩
        by_cases hje : j = s + k
        · exact absurd (hje ▸ hj3) hp
        · exact h4 j hj1 (by omega) hj3

theorem rfindFrom_neg (p : Nat → Bool) (s : Nat) :
    ∀ (k : Nat), rfindFrom p s k = -1 →
      ∀ j, s ≤ j → j < s + k → ¬p j = true := by
  intro k
  induction k with
  | zero => intro _ j hj1 hj2; exact absurd hj2 (by omega)
  | succ k ih =>
    intro h j hj1 hj2
    by_cases hp : p (s + k) = true
    · rw [rfindFrom, if_pos hp] at h
      exact absurd h (by omega)
    · rw [rfindFrom, if_neg hp] at h
      by_cases hje : j = s + k
      · exact hje ▸ hp
      · exact ih h j hj1 (by omega)

theorem rfindDotSpace_cases (content : List Char) (s e : Nat) :
    rfindDotSpace content s e = -1 ∨
      ∃ b : Nat, rfindDotSpace content s e = (b : Int) ∧ dotSpaceOk content s e b ∧
        ∀ j, dotSpaceOk content s e j → j ≤ b := by
  rcases rfindFrom_cases _ s (e - s) with hneg | ⟨b, hb, h1, h2, h3, h4⟩
  · exact Or.inl hneg
  · simp only [Bool.and_eq_true, decide_eq_true_eq, beq_iff_eq] at h3
    refine Or.inr ⟨b, hb, ⟨h1, h3.1.1, h3.1.2, h3.2⟩, fun j hj => ?_⟩
    obtain ⟨hj1, hj2, hj3, hj4⟩ := hj
    refine h4 j hj1 (by omega) ?_
    simp only [Bool.and_eq_true, decide_eq_true_eq, beq_iff_eq]
    exact ⟨⟨hj2, hj3⟩, hj4⟩

theorem rfindDotSpace_neg (content : List Char) (s e : Nat)
    (h : rfindDotSpace content s e = -1) :
    ∀ j, ¬dotSpaceOk content s e j := by
  intro j hj
  obtain ⟨hj1, hj2, hj3, hj4⟩ := hj
  refine rfindFrom_neg _ s (e - s) h j hj1 (by omega) ?_
  simp only [Bool.and_eq_true, decide_eq_true_eq, beq_iff_eq]
  exact ⟨⟨hj2, hj3⟩, hj4⟩

theorem rfindNewline_cases (content : List Char) (s e : Nat) (hse : s ≤ e) :
    rfindNewline content s e = -1 ∨
      ∃ b : Nat, rfindNewline content s e = (b : Int) ∧ newlineOk content s e b ∧
        ∀ j, newlineOk content s e j → j ≤ b := by
  rcases rfindFrom_cases _ s (e - s) with hneg | ⟨b, hb, h1, h2, h3, h4⟩
  · exact Or.inl hneg
  · simp only [beq_iff_eq] at h3
    refine Or.inr ⟨b, hb, ⟨h1, by omega, h3⟩, fun j hj => ?_⟩
    obtain ⟨hj1, hj2, hj3⟩ := hj
    refine h4 j hj1 (by omega) ?_
    simp only [beq_iff_eq]
    exact hj3

theorem rfindNewline_neg (content : List Char) (s e : Nat)
    (h : rfindNewline content s e = -1) :
    ∀ j, ¬newlineOk content s e j := by
  intro j hj
  obtain ⟨hj1, hj2, hj3⟩ := hj
  refine rfindFrom_neg _ s (e - s) h j hj1 (by omega) ?_
  simp only [beq_iff_eq]
  exact hj3

theorem chooseEnd_le (content : List Char) (maxSize start : Nat) :
    chooseEnd content maxSize start ≤ start + maxSize := by
  rw [chooseEnd]
  by_cases hlen : start + maxSize < content.length
  · rw [if_pos hlen]
    by_cases hd : ((start + maxSize / 2 : Nat) : Int) <
        rfindDotSpace content start (start + maxSize)
    · rw [if_pos hd]
      rcases rfindDotSpace_cases content start (start + maxSize) with hneg | ⟨b, hb, hok, _⟩
      · rw [hneg] at hd
        exact absurd hd (by omega)
      · rw [hb] at hd ⊢
        obtain ⟨_, hb2, _, _⟩ := hok
        omega
    · rw [if_neg hd]
      by_cases hn : ((start + maxSize / 2 : Nat) : Int) <
          rfindNewline content start (start + maxSize)
      · rw [if_pos hn]
        rcases rfindNewline_cases content start (start + maxSize)
            (Nat.le_add_right start maxSize) with hneg | ⟨b, hb, hok, _⟩
        · rw [hneg] at hn
          exact absurd hn (by omega)
        · rw [hb] at hn ⊢
          obtain ⟨_, hb2, _⟩ := hok
          omega
      · rw [if_neg hn]
  · rw [if_neg hlen]

theorem chooseEnd_lower (content : List Char) (maxSize start : Nat) (hms : 1 ≤ maxSize) :
    start + maxSize / 2 + 1 ≤ chooseEnd content maxSize start := by
  rw [chooseEnd]
  by_cases hlen : start + maxSize < content.length
  · rw [if_pos hlen]
    by_cases hd : ((start + maxSize / 2 : Nat) : Int) <
        rfindDotSpace content start (start + maxSize)
    · rw [if_pos hd]
      omega
    · rw [if_neg hd]
      by_cases hn : ((start + maxSize / 2 : Nat) : Int) <
          rfindNewline content start (start + maxSize)
      · rw [if_pos hn]
        omega
      · rw [if_neg hn]
        omega
  · rw [if_neg hlen]
    omega

theorem pyStrip_length_le (l : List Char) : (pyStrip l).length ≤ l.length := by
  rw [pyStrip]
  calc ((l.dropWhile Char.isWhitespace).reverse.dropWhile Char.isWhitespace).reverse.length
      = ((l.dropWhile Char.isWhitespace).reverse.dropWhile Char.isWhitespace).length := by
        rw [List.length_reverse]
    _ ≤ (l.dropWhile Char.isWhitespace).reverse.length :=
        (List.dropWhile_sublist _).length_le
    _ = (l.dropWhile Char.isWhitespace).length := by rw [List.length_reverse]
    _ ≤ l.length := (List.dropWhile_sublist _).length_le

theorem pySlice_length_le (l : List Char) (s e : Nat) :
    (pySlice l s e).length ≤ e - s := by
  rw [pySlice]
  simp only [List.length_drop, List.length_take]
  omega

theorem chunk_length_le (content : List Char) (maxSize start : Nat) :
    (pyStrip (pySlice content start (chooseEnd content maxSize start))).length ≤ maxSize := by
  have h1 := pyStrip_length_le (pySlice content start (chooseEnd content maxSize start))
  have h2 := pySlice_length_le content start (chooseEnd content maxSize start)
  have h3 := chooseEnd_le content maxSize start
  omega

theorem chunkLoop_length_le (content : List Char) (maxSize overlap : Nat) :
    ∀ (fuel start : Nat) (cs : List (List Char)),
      chunkLoop content maxSize overlap fuel start = some cs →
      ∀ c ∈ cs, c.length ≤ maxSize := by
  intro fuel
  induction fuel with
  | zero =>
    intro start cs h c hc
    rw [chunkLoop] at h
    by_cases hs : start < content.length
    · rw [if_pos hs] at h
      exact absurd h Option.noConfusion
    · rw [if_neg hs] at h
      obtain rfl : [] = cs := Option.some_inj.mp h
      exact absurd hc (List.not_mem_nil c)
  | succ fuel ih =>
    intro start cs h c hc
    rw [chunkLoop] at h
    by_cases hs : start < content.length
    · rw [if_pos hs] at h
      cases hr : chunkLoop content maxSize overlap fuel
          (nextStart content maxSize overlap start) with
      | none =>
        rw [hr] at h
        exact absurd h Option.noConfusion
      | some rest =>
        rw [hr] at h
        dsimp only at h
        by_cases hempty :
            (pyStrip (pySlice content start (chooseEnd content maxSize start))).isEmpty = true
        · rw [if_pos hempty] at h
          obtain rfl : rest = cs := Option.some_inj.mp h
          exact ih _ rest hr c hc
        · rw [if_neg hempty] at h
          obtain rfl := Option.some_inj.mp h
          rcases List.mem_cons.mp hc with rfl | hc
          · exact chunk_length_le content maxSize start
          · exact ih _ rest hr c hc
    · rw [if_neg hs] at h
      obtain rfl : [] = cs := Option.some_inj.mp h
      exact absurd hc (List.not_mem_nil c)

theorem windowLoop_head_start (content : List Char) (maxSize overlap : Nat) :
    ∀ (fuel start : Nat) (w : Nat × Nat) (ws : List (Nat × Nat)),
      windowLoop content maxSize overlap fuel start = some (w :: ws) → w.1 = start := by
  intro fuel
  cases fuel with
  | zero =>
    intro start w ws h
    rw [windowLoop] at h
    by_cases hs : start < content.length
    · rw [if_pos hs] at h
      exact absurd h Option.noConfusion
    · rw [if_neg hs] at h
      exact absurd (Option.some_inj.mp h) (List.cons_ne_nil w ws).symm
  | succ fuel =>
    intro start w ws h
    rw [windowLoop] at h
    by_cases hs : start < content.length
    · rw [if_pos hs] at h
      cases hr : windowLoop content maxSize overlap fuel
          (nextStart content maxSize overlap start) with
      | none =>
        rw [hr] at h
        exact absurd h Option.noConfusion
      | some rest =>
        rw [hr] at h
        dsimp only at h
        obtain h2 := Option.some_inj.mp h
        rw [← ((List.cons.injEq _ _ _ _).mp h2).1]
    · rw [if_neg hs] at h
      exact absurd (Option.some_inj.mp h) (List.cons_ne_nil w ws).symm

theorem windowLoop_chain (content : List Char) (maxSize overlap : Nat) :
    ∀ (fuel start : Nat) (ws : List (Nat × Nat)),
      windowLoop content maxSize overlap fuel start = some ws →
      ws.Chain' (fun a b => b.1 = a.2 - overlap) ∧
        ∀ w ∈ ws, w.2 = chooseEnd content maxSize w.1 := by
  intro fuel
  induction fuel with
  | zero =>
    intro start ws h
    rw [windowLoop] at h
    by_cases hs : start < content.length
    · rw [if_pos hs] at h
      exact absurd h Option.noConfusion
    · rw [if_neg hs] at h
      obtain rfl : [] = ws := Option.some_inj.mp h
      exact ⟨List.chain'_nil, fun w hw => absurd hw (List.not_mem_nil w)⟩
  | succ fuel ih =>
    intro start ws h
    rw [windowLoop] at h
    by_cases hs : start < content.length
    · rw [if_pos hs] at h
      cases hr : windowLoop content maxSize overlap fuel
          (nextStart content maxSize overlap start) with
      | none =>
        rw [hr] at h
        exact absurd h Option.noConfusion
      | some rest =>
        rw [hr] at h
        dsimp only at h
        obtain rfl := Option.some_inj.mp h
        obtain ⟨hchain, hends⟩ := ih _ rest hr
        constructor
        · rw [List.chain'_cons']
          refine ⟨?_, hchain⟩
          intro y hy
          cases rest with
          | nil => simp at hy
          | cons w2 ws2 =>
            obtain rfl : w2 = y := Option.some_inj.mp hy
            have hstart2 := windowLoop_head_start content maxSize overlap fuel _ w2 ws2 hr
            rw [hstart2, nextStart]
            by_cases he : chooseEnd content maxSize start < content.length
            · rw [if_pos he]
            · -- the window reached the end of the content, so the loop
              -- terminates and the tail of windows is empty
              exfalso
              have hns : nextStart content maxSize overlap start = content.length := by
                rw [nextStart, if_neg he]
              rw [hns] at hr
              cases fuel with
              | zero =>
                rw [windowLoop, if_neg (lt_irrefl content.length)] at hr
                exact (List.cons_ne_nil w2 ws2) (Option.some_inj.mp hr).symm
              | succ fuel2 =>
                rw [windowLoop, if_neg (lt_irrefl content.length)] at hr
                exact (List.cons_ne_nil w2 ws2) (Option.some_inj.mp hr).symm
        · intro w hw
          rcases List.mem_cons.mp hw with rfl | hw
          · rfl
          · exact hends w hw
    · rw [if_neg hs] at h
      obtain rfl : [] = ws := Option.some_inj.mp h
      exact ⟨List.chain'_nil, fun w hw => absurd hw (List.not_mem_nil w)⟩

theorem chunkLoop_eq_windows (content : List Char) (maxSize overlap : Nat) :
    ∀ (fuel start : Nat) (cs : List (List Char)) (ws : List (Nat × Nat)),
      chunkLoop content maxSize overlap fuel start = some cs →
      windowLoop content maxSize overlap fuel start = some ws →
      cs = (ws.map (fun w => pyStrip (pySlice content w.1 w.2))).filter
        (fun c => !c.isEmpty) := by
  intro fuel
  induction fuel with
  | zero =>
    intro start cs ws hc hw
    rw [chunkLoop] at hc
    rw [windowLoop] at hw
    by_cases hs : start < content.length
    · rw [if_pos hs] at hc
      exact absurd hc Option.noConfusion
    · rw [if_neg hs] at hc hw
      obtain rfl : [] = cs := Option.some_inj.mp hc
      obtain rfl : [] = ws := Option.some_inj.mp hw
      rfl
  | succ fuel ih =>
    intro start cs ws hc hw
    rw [chunkLoop] at hc
    rw [windowLoop] at hw
    by_cases hs : start < content.length
    · rw [if_pos hs] at hc hw
      cases hrc : chunkLoop content maxSize overlap fuel
          (nextStart content maxSize overlap start) with
      | none =>
        rw [hrc] at hc
        exact absurd hc Option.noConfusion
      | some restc =>
        rw [hrc] at hc
        dsimp only at hc
        cases hrw : windowLoop content maxSize overlap fuel
            (nextStart content maxSize overlap start) with
        | none =>
          rw [hrw] at hw
          exact absurd hw Option.noConfusion
        | some restw =>
          rw [hrw] at hw
          dsimp only at hw
          obtain rfl := Option.some_inj.mp hw
          have hrest := ih _ restc restw hrc hrw
          by_cases hempty :
              (pyStrip (pySlice content start (chooseEnd content maxSize start))).isEmpty = true
          · rw [if_pos hempty] at hc
            obtain rfl : restc = cs := Option.some_inj.mp hc
            rw [List.map_cons, List.filter_cons]
            dsimp only
            rw [if_neg (by rw [hempty]; simp)]
            exact hrest
          · rw [if_neg hempty] at hc
            obtain rfl := Option.some_inj.mp hc
            rw [List.map_cons, List.filter_cons]
            dsimp only
            rw [if_pos (by rw [Bool.not_eq_true']; exact eq_false_of_ne_true hempty), hrest]
    · rw [if_neg hs] at hc hw
      obtain rfl : [] = cs := Option.some_inj.mp hc
      obtain rfl : [] = ws := Option.some_inj.mp hw
      rfl

theorem nextStart_advance (content : List Char) (maxSize overlap start : Nat)
    (hov : overlap < maxSize / 2) :
    nextStart content maxSize overlap start = content.length ∨
      start + (maxSize / 2 + 1 - overlap) ≤ nextStart content maxSize overlap start := by
  rw [nextStart]
  by_cases he : chooseEnd content maxSize start < content.length
  · right
    rw [if_pos he]
    have h1 : start + maxSize / 2 + 1 ≤ chooseEnd content maxSize start :=
      chooseEnd_lower content maxSize start (by omega)
    omega
  · left
    rw [if_neg he]

theorem chunkLoop_isSome (content : List Char) (maxSize overlap : Nat)
    (hov : overlap < maxSize / 2) :
    ∀ (fuel start : Nat), content.length - start ≤ fuel →
      (chunkLoop content maxSize overlap fuel start).isSome = true := by
  intro fuel
  induction fuel with
  | zero =>
    intro start h
    rw [chunkLoop, if_neg (by omega)]
    rfl
  | succ fuel ih =>
    intro start h
    rw [chunkLoop]
    by_cases hs : start < content.length
    · rw [if_pos hs]
      have hadv := nextStart_advance content maxSize overlap start hov
      have hnext : content.length - nextStart content maxSize overlap start ≤ fuel := by
        rcases hadv with h1 | h1 <;> omega
      have hrec := ih (nextStart content maxSize overlap start) hnext
      cases hr : chunkLoop content maxSize overlap fuel
          (nextStart content maxSize overlap start) with
      | none =>
        rw [hr] at hrec
        exact absurd hrec (by rw [Option.isSome_none]; exact Bool.false_ne_true)
      | some rest =>
        dsimp only
        by_cases hempty :
            (pyStrip (pySlice content start (chooseEnd content maxSize start))).isEmpty = true
        · rw [if_pos hempty]
          rfl
        · rw [if_neg hempty]
          rfl
    · rw [if_neg hs]
      rfl

/-- **C5** — Splitting an oversize documentation section: (i) every
emitted sub-chunk has length ≤ `maxSize`; (ii) consecutive windows of the
loop overlap by `overlap` characters (the next window starts at
`end - overlap`) and no window spans more than `maxSize`; (iii) the
emitted chunks are exactly the stripped non-empty window contents in
order; (iv) `rfind(". ")` finds the last `". "` occurrence in range, or
reports none when there is none; (v) every split point is either the
last `". "` boundary in the second half of the window (cut after the
period), or — when no such boundary exists — the last newline in the
second half, or a hard cut at `start + maxSize`; (vi) no persisted chunk
is shorter than `minSize`. -/
theorem c5_chunk_splitting (content : List Char) (maxSize overlap minSize fuel : Nat) :
    (∀ cs, chunkContent content maxSize overlap fuel = some cs →
      ∀ c ∈ cs, c.length ≤ maxSize) ∧
    (∀ ws, windowLoop content maxSize overlap fuel 0 = some ws →
      ws.Chain' (fun a b => b.1 = a.2 - overlap) ∧
        ∀ w ∈ ws, w.2 = chooseEnd content maxSize w.1 ∧ w.2 ≤ w.1 + maxSize) ∧
    (∀ cs ws, chunkLoop content maxSize overlap fuel 0 = some cs →
      windowLoop content maxSize overlap fuel 0 = some ws →
      cs = (ws.map (fun w => pyStrip (pySlice content w.1 w.2))).filter
        (fun c => !c.isEmpty)) ∧
    (∀ s e, (rfindDotSpace content s e = -1 ∧ ∀ j, ¬dotSpaceOk content s e j) ∨
      ∃ b : Nat, rfindDotSpace content s e = (b : Int) ∧ dotSpaceOk content s e b ∧
        ∀ j, dotSpaceOk content s e j → j ≤ b) ∧
    (∀ start,
      chooseEnd content maxSize start = start + maxSize ∨
      (∃ b, start + maxSize / 2 < b ∧ dotSpaceOk content start (start + maxSize) b ∧
        (∀ j, dotSpaceOk content start (start + maxSize) j → j ≤ b) ∧
        chooseEnd content maxSize start = b + 1) ∨
      (∃ nb, start + maxSize / 2 < nb ∧ newlineOk content start (start + maxSize) nb ∧
        (∀ j, ¬dotSpaceOk content start (start + maxSize) j ∨
          ∃ d, dotSpaceOk content start (start + maxSize) d ∧
            (∀ i, dotSpaceOk content start (start + maxSize) i → i ≤ d) ∧
            d ≤ start + maxSize / 2) ∧
        chooseEnd content maxSize start = nb)) ∧
    (∀ l, persistedChunks content maxSize overlap minSize fuel = some l →
      ∀ c ∈ l, minSize ≤ c.length) := by
  refine ⟨?_, ?_, ?_, ?_, ?_, ?_⟩
  · intro cs hcs c hc
    rw [chunkContent] at hcs
    by_cases hlen : content.length ≤ maxSize
    · rw [if_pos hlen] at hcs
      obtain rfl : [content] = cs := Option.some_inj.mp hcs
      rcases List.mem_cons.mp hc with rfl | hc
      · exact hlen
      · exact absurd hc (List.not_mem_nil c)
    · rw [if_neg hlen] at hcs
      exact chunkLoop_length_le content maxSize overlap fuel 0 cs hcs c hc
  · intro ws hws
    obtain ⟨hchain, hends⟩ := windowLoop_chain content maxSize overlap fuel 0 ws hws
    exact ⟨hchain, fun w hw =>
      ⟨hends w hw, (hends w hw) ▸ chooseEnd_le content maxSize w.1⟩⟩
  · intro cs ws hcs hws
    exact chunkLoop_eq_windows content maxSize overlap fuel 0 cs ws hcs hws
  · intro s e
    rcases rfindDotSpace_cases content s e with hneg | ⟨b, hb, hok, hmax⟩
    · exact Or.inl ⟨hneg, rfindDotSpace_neg content s e hneg⟩
    · exact Or.inr ⟨b, hb, hok, hmax⟩
  · intro start
    rw [chooseEnd]
    by_cases hlen : start + maxSize < content.length
    · rw [if_pos hlen]
      by_cases hd : ((start + maxSize / 2 : Nat) : Int) <
          rfindDotSpace content start (start + maxSize)
      · rw [if_pos hd]
        rcases rfindDotSpace_cases content start (start + maxSize) with
          hneg | ⟨b, hb, hok, hmax⟩
        · rw [hneg] at hd
          exact absurd hd (by omega)
        · rw [hb] at hd ⊢
          refine Or.inr (Or.inl ⟨b, by exact_mod_cast hd, hok, hmax, ?_⟩)
          rw [Int.toNat_natCast]
      · rw [if_neg hd]
        by_cases hn : ((start + maxSize / 2 : Nat) : Int) <
            rfindNewline content start (start + maxSize)
        · rw [if_pos hn]
          rcases rfindNewline_cases content start (start + maxSize)
              (Nat.le_add_right start maxSize) with hneg | ⟨nb, hnb, hok, _⟩
          · rw [hneg] at hn
            exact absurd hn (by omega)
          · rw [hnb] at hn ⊢
            refine Or.inr (Or.inr ⟨nb, by exact_mod_cast hn, hok, ?_, ?_⟩)
            · intro j
              rcases rfindDotSpace_cases content start (start + maxSize) with
                hneg2 | ⟨d, hdd, hdok, hdmax⟩
              · exact Or.inl (rfindDotSpace_neg content start (start + maxSize) hneg2 j)
              · refine Or.inr ⟨d, hdok, hdmax, ?_⟩
                rw [hdd] at hd
                omega
            · rw [Int.toNat_natCast]
        · rw [if_neg hn]
          exact Or.inl rfl
    · rw [if_neg hlen]
      exact Or.inl rfl
  · intro l hl c hc
    rw [persistedChunks] at hl
    by_cases hmin : content.length < minSize
    · rw [if_pos hmin] at hl
      obtain rfl : [] = l := Option.some_inj.mp hl
      exact absurd hc (List.not_mem_nil c)
    · rw [if_neg hmin] at hl
      obtain ⟨cs, _, rfl⟩ := Option.map_eq_some'.mp hl
      obtain ⟨_, hfc⟩ := List.mem_filter.mp hc
      exact of_decide_eq_true hfc

/-- Witness for C5 on a concrete 13-character section with `maxSize = 8`,
`overlap = 2`, `minSize = 3`: the loop finishes, every chunk fits, and
every persisted chunk is long enough. -/
theorem c5_chunk_splitting_witness :
    chunkContent "aaaa. bbbb\nc".toList 8 2 14 =
      some ((chunkContent "aaaa. bbbb\nc".toList 8 2 14).getD []) ∧
    (∀ c ∈ (chunkContent "aaaa. bbbb\nc".toList 8 2 14).getD [], c.length ≤ 8) ∧
    persistedChunks "aaaa. bbbb\nc".toList 8 2 3 14 =
      some ((persistedChunks "aaaa. bbbb\nc".toList 8 2 3 14).getD []) ∧
    (∀ c ∈ (persistedChunks "aaaa. bbbb\nc".toList 8 2 3 14).getD [], 3 ≤ c.length) := by
  refine ⟨by decide, ?_, by decide, ?_⟩
  · exact (c5_chunk_splitting "aaaa. bbbb\nc".toList 8 2 3 14).1 _ (by decide)
  · exact (c5_chunk_splitting "aaaa. bbbb\nc".toList 8 2 3 14).2.2.2.2.2 _ (by decide)

/-- **C10** — `chunk_content` terminates for every input whenever
`overlap < maxSize / 2` (which covers the defaults 100 < 1000 / 2):
`content.length` steps of fuel always suffice, because each loop
iteration either reaches the end of the content or advances the window
start by at least `maxSize / 2 + 1 - overlap` characters. -/
theorem c10_chunk_content_terminates (content : List Char) (maxSize overlap : Nat)
    (hov : overlap < maxSize / 2) :
    (chunkContent content maxSize overlap content.length).isSome = true ∧
    (∀ start, start < content.length →
      nextStart content maxSize overlap start = content.length ∨
        start + (maxSize / 2 + 1 - overlap) ≤ nextStart content maxSize overlap start) := by
  constructor
  · rw [chunkContent]
    by_cases hlen : content.length ≤ maxSize
    · rw [if_pos hlen]
      rfl
    · rw [if_neg hlen]
      exact chunkLoop_isSome content maxSize overlap hov content.length 0 (by omega)
  · intro start _
    exact nextStart_advance content maxSize overlap start hov

/-- Witness for C10: a ten-character content chunked with `maxSize = 4`,
`overlap = 1` terminates within ten fuel steps. -/
theorem c10_chunk_content_terminates_witness :
    1 < 4 / 2 ∧
    (chunkContent "abcdefghij".toList 4 1 ("abcdefghij".toList).length).isSome = true :=
  ⟨by decide, (c10_chunk_content_terminates "abcdefghij".toList 4 1 (by decide)).1⟩

/-! ### Blame grouping lemmas -/

theorem groupStep_inv (P : Nat → Prop) (acc : List BlameGroup) (e : BlameLine)
    (hP : P e.line)
    (hacc : ∀ g ∈ acc, P g.lineStart ∧ P g.lineEnd ∧ g.lineStart ≤ g.lineEnd) :
    ∀ g ∈ groupStep acc e, P g.lineStart ∧ P g.lineEnd ∧ g.lineStart ≤ g.lineEnd := by
  intro g hg
  rw [groupStep] at hg
  cases hlast : acc.getLast? with
  | none =>
    rw [hlast] at hg
    dsimp only at hg
    rcases List.mem_append.mp hg with hg | hg
    · exact hacc g hg
    · rcases List.mem_singleton.mp hg with rfl
      exact ⟨hP, hP, le_refl _⟩
  | some g0 =>
    rw [hlast] at hg
    dsimp only at hg
    have hg0 := hacc g0 (List.mem_of_getLast?_eq_some hlast)
    by_cases hcond : (g0.commit == e.commit && g0.lineEnd + 1 == e.line) = true
    · rw [if_pos hcond] at hg
      rcases List.mem_append.mp hg with hg | hg
      · exact hacc g ((List.dropLast_sublist acc).subset hg)
      · rcases List.mem_singleton.mp hg with rfl
        rw [Bool.and_eq_true] at hcond
        have hline2 : g0.lineEnd + 1 = e.line := beq_iff_eq.mp hcond.2
        refine ⟨hg0.1, ?_, ?_⟩
        · show P e.line
          exact hP
        · show g0.lineStart ≤ e.line
          have := hg0.2.2
          omega
    · rw [if_neg hcond] at hg
      rcases List.mem_append.mp hg with hg | hg
      · exact hacc g hg
      · rcases List.mem_singleton.mp hg with rfl
        exact ⟨hP, hP, le_refl _⟩

theorem groupBlame_inv (P : Nat → Prop) :
    ∀ (fl : List BlameLine) (acc : List BlameGroup),
      (∀ e ∈ fl, P e.line) →
      (∀ g ∈ acc, P g.lineStart ∧ P g.lineEnd ∧ g.lineStart ≤ g.lineEnd) →
      ∀ g ∈ fl.foldl groupStep acc,
        P g.lineStart ∧ P g.lineEnd ∧ g.lineStart ≤ g.lineEnd := by
  intro fl
  induction fl with
  | nil => intro acc _ hacc; exact hacc
  | cons e rest ih =>
    intro acc hfl hacc
    rw [List.foldl_cons]
    exact ih _ (fun x hx => hfl x (List.mem_cons_of_mem _ hx))
      (groupStep_inv P acc e (hfl e (List.mem_cons_self _ _)) hacc)

/-- **C6 (counterexample)** — The claim describes `get_blame` as grouping
the per-line entries first and filtering the grouped output to the
requested range afterwards.  For a file whose lines 1–7 come from commit
c1 and line 8 from c2, blame over [5, 8] returns an entry clipped to
lines 5–7 (the code filters the per-line entries first), whereas the
group-then-filter pipeline keeps the full 1–7 group — the two
descriptions disagree at this input. -/
theorem c6_blame_order_counterexample :
    getBlame [("c1", ["a", "b", "c", "d", "e", "f", "g"]), ("c2", ["h"])]
        (some 5) (some 8) ≠
      getBlameGroupFirst [("c1", ["a", "b", "c", "d", "e", "f", "g"]), ("c2", ["h"])]
        (some 5) (some 8) := by
  decide

/-- **C6 (amended)** — `get_blame` produces per-line 1-indexed entries,
filters them to the requested [start, end] range first, and then groups
runs of consecutive surviving lines sharing the same commit, joining the
line contents with newlines; every returned entry lies inside the
requested range.  In particular, for a file where lines 5–7 come from
commit c1 and line 8 from commit c2, blame(path, 5, 8) returns exactly
the two grouped entries (5–7, c1) and (8–8, c2). -/
theorem c6_blame_filter_then_group :
    (getBlame [("c0", ["l1", "l2", "l3", "l4"]), ("c1", ["l5", "l6", "l7"]),
        ("c2", ["l8"])] (some 5) (some 8) =
      [{ lineStart := 5, lineEnd := 7, commit := "c1", content := "l5\nl6\nl7" },
       { lineStart := 8, lineEnd := 8, commit := "c2", content := "l8" }]) ∧
    (∀ (bd : List (String × List String)) (s t : Nat) (g : BlameGroup),
      g ∈ getBlame bd (some s) (some t) →
      s ≤ g.lineStart ∧ g.lineEnd ≤ t ∧ g.lineStart ≤ g.lineEnd) := by
  constructor
  · decide
  · intro bd s t g hg
    have hfl : ∀ e ∈ filterRange (some s) (some t) (blameLines bd),
        s ≤ e.line ∧ e.line ≤ t := by
      intro e he
      rw [filterRange] at he
      obtain ⟨he1, he2⟩ := List.mem_filter.mp he
      obtain ⟨_, he3⟩ := List.mem_filter.mp he1
      exact ⟨of_decide_eq_true he3, of_decide_eq_true he2⟩
    have hinv := groupBlame_inv (fun n => s ≤ n ∧ n ≤ t)
      (filterRange (some s) (some t) (blameLines bd)) [] hfl
      (fun x hx => absurd hx (List.not_mem_nil x)) g hg
    exact ⟨hinv.1.1, hinv.2.1.2, hinv.2.2⟩

/-- Witness for C6 (amended): the grouped entry (5–7, c1) really is in the
blame output for [5, 8], and its bounds lie inside the range. -/
theorem c6_blame_filter_then_group_witness :
    BlameGroup.mk 5 7 "c1" "l5\nl6\nl7" ∈
      getBlame [("c0", ["l1", "l2", "l3", "l4"]), ("c1", ["l5", "l6", "l7"]),
        ("c2", ["l8"])] (some 5) (some 8) ∧
    (5 : Nat) ≤ 5 ∧ (7 : Nat) ≤ 8 ∧ (5 : Nat) ≤ 7 := by
  have hmem : BlameGroup.mk 5 7 "c1" "l5\nl6\nl7" ∈
      getBlame [("c0", ["l1", "l2", "l3", "l4"]), ("c1", ["l5", "l6", "l7"]),
        ("c2", ["l8"])] (some 5) (some 8) := by decide
  exact ⟨hmem, c6_blame_filter_then_group.2 _ 5 8 _ hmem⟩

/-! ### Reference extraction and upsert lemmas -/

mutual

theorem refsWalk_inv : ∀ (n : TSNode) (st : List (String × Nat) × List (String × Nat)),
    (st.2.Nodup ∧ ∀ x ∈ st.2, x ∈ st.1) →
    ((refsWalk n st).2.Nodup ∧ ∀ x ∈ (refsWalk n st).2, x ∈ (refsWalk n st).1)
  | .node typ text line children, st, h => by
    rw [refsWalk]
    refine refsWalkList_inv children _ ?_
    by_cases htyp : (typ == "identifier" || typ == "name"
        || typ == "type_identifier") = true
    · rw [if_pos htyp]
      by_cases hmem : (text, line) ∈ st.1
      · rw [if_pos hmem]
        exact h
      · rw [if_neg hmem]
        constructor
        · rw [List.nodup_append]
          refine ⟨h.1, List.nodup_singleton _, ?_⟩
          intro x hx hx2
          rw [List.mem_singleton] at hx2
          exact hmem (hx2 ▸ h.2 x hx)
        · intro x hx
          rcases List.mem_append.mp hx with hx | hx
          · exact List.mem_cons_of_mem _ (h.2 x hx)
          · rw [List.mem_singleton] at hx
            exact hx ▸ List.mem_cons_self _ _
    · rw [if_neg htyp]
      exact h

theorem refsWalkList_inv :
    ∀ (l : List TSNode) (st : List (String × Nat) × List (String × Nat)),
    (st.2.Nodup ∧ ∀ x ∈ st.2, x ∈ st.1) →
    ((refsWalkList l st).2.Nodup ∧ ∀ x ∈ (refsWalkList l st).2, x ∈ (refsWalkList l st).1)
  | [], st, h => by rw [refsWalkList]; exact h
  | n :: rest, st, h => by
    rw [refsWalkList]
    exact refsWalkList_inv rest _ (refsWalk_inv n st h)

end

/-- **C8** — Reference-row uniqueness: reference extraction de-duplicates
per (name, line) within a file (its output list has no duplicate pairs),
`upsert_reference` is a no-op when the exact (symbol_name, file, line)
triple already exists, and any sequence of upserts starting from a
duplicate-free table leaves it duplicate-free — no two reference rows
ever share the same triple. -/
theorem c8_reference_row_uniqueness :
    (∀ root : TSNode, (extractReferences root).Nodup) ∧
    (∀ (ops : List (String × Nat × Nat)) (tbl : List (String × Nat × Nat)),
      tbl.Nodup → (ops.foldl upsertReference tbl).Nodup) ∧
    (∀ (tbl : List (String × Nat × Nat)) (row : String × Nat × Nat),
      row ∈ tbl → upsertReference tbl row = tbl) := by
  refine ⟨?_, ?_, ?_⟩
  · intro root
    exact (refsWalk_inv root ([], [])
      ⟨List.nodup_nil, fun x hx => absurd hx (List.not_mem_nil x)⟩).1
  · intro ops
    induction ops with
    | nil => intro tbl h; exact h
    | cons r rest ih =>
      intro tbl h
      rw [List.foldl_cons]
      apply ih
      rw [upsertReference]
      by_cases hr : r ∈ tbl
      · rw [if_pos hr]
        exact h
      · rw [if_neg hr]
        rw [List.nodup_append]
        exact ⟨h, List.nodup_singleton _,
          fun x hx hx2 => hr ((List.mem_singleton.mp hx2) ▸ hx)⟩
  · intro tbl row h
    rw [upsertReference, if_pos h]

/-- Witness for C8: a tree containing the identifier `g` twice on line 1
extracts `[("g", 1), ("h", 2)]` without duplicates, repeated upserts of
the same triple stay duplicate-free, and the second upsert of an
existing triple is a no-op. -/
theorem c8_reference_row_uniqueness_witness :
    extractReferences (.node "module" "" 1
      [.node "identifier" "g" 1 [], .node "identifier" "g" 1 [],
       .node "identifier" "h" 2 []]) = [("g", 1), ("h", 2)] ∧
    (extractReferences (.node "module" "" 1
      [.node "identifier" "g" 1 [], .node "identifier" "g" 1 [],
       .node "identifier" "h" 2 []])).Nodup ∧
    ([("f", 1, 3), ("f", 1, 3)].foldl upsertReference
      ([] : List (String × Nat × Nat))).Nodup ∧
    upsertReference [("f", 1, 3)] ("f", 1, 3) = [("f", 1, 3)] := by
  obtain ⟨h1, h2, h3⟩ := c8_reference_row_uniqueness
  exact ⟨by decide, h1 _, h2 _ [] List.nodup_nil, h3 _ _ (by decide)⟩

end CodeMemory
